import Mathlib

/-!
Verification of `CNewtonUpdateOnSubspace` (SU2, Common/include/toolboxes/
CNewtonUpdateOnSubspace.hpp), a Newton-on-subspace accelerator for fixed-point
iterations.

Shallow embedding conventions:

* Scalars (`su2double`) are modelled by `ℚ`, the exact-arithmetic idealization
  of the floating-point scalars.  Where IEEE special values (NaN) are the point
  of a property, a dedicated NaN-aware scalar type `RD` is used for the
  affected computation (the Krylov-criterion quotients).
* Flattened solution buffers (`su2matrix<Scalar>` of shape npt × nvar) are
  `List ℚ` of length `npt * nvar`.
* The Eigen dense-linear-algebra library is an external collaborator: its QR
  factorization is modelled as an oracle argument; the documented Eigen fact
  that `matrixQR().diagonal()` has `min(rows, cols)` entries enters theorems
  as a hypothesis on the oracle.  Out-of-bounds reads of that diagonal are
  made observable by an `Except ℕ` result carrying the offending index.
* The algorithmic-differentiation oracle (`AD::SetDerivative` /
  `AD::ComputeAdjoint` / `AD::GetDerivative`) is modelled as a function
  `List ℚ → List ℚ` mapping a seed vector to the vector–Jacobian product.
-/

namespace NewtonUpdate

/-- Dot product of two flattened solution buffers. -/
def dot (a b : List ℚ) : ℚ := (List.zipWith (· * ·) a b).sum

/-- Elementwise sum of two buffers. -/
def vecAdd (a b : List ℚ) : List ℚ := List.zipWith (· + ·) a b

/-- Elementwise difference of two buffers. -/
def vecSub (a b : List ℚ) : List ℚ := List.zipWith (· - ·) a b

/-- Scalar multiple of a buffer. -/
def smul (c : ℚ) (a : List ℚ) : List ℚ := a.map (fun x => c * x)

/-- `EigenR.transpose() * v`: one coefficient per stored basis column. -/
def matTvec (cols : List (List ℚ)) (v : List ℚ) : List ℚ :=
  cols.map (fun c => dot c v)

/-- `EigenR * coeffs`: linear combination of the stored basis columns. -/
def colsMulVec (cols : List (List ℚ)) (coeffs : List ℚ) (n : ℕ) : List ℚ :=
  (List.zipWith smul coeffs cols).foldl vecAdd (List.replicate n 0)

/-- Row-matrix times vector, one dot product per row. -/
def matVec (rows : List (List ℚ)) (v : List ℚ) : List ℚ :=
  rows.map (fun r => dot r v)

/-- Exact rational square root used to model `normalize()`; exact whenever the
argument is a square of a rational (the only case the theorems evaluate). -/
def ratSqrt (q : ℚ) : ℚ := (Nat.sqrt q.num.toNat : ℚ) / (Nat.sqrt q.den : ℚ)

/-- Eigen `v.normalize()`: divide by the Euclidean norm. -/
def normalize (v : List ℚ) : List ℚ := smul (1 / ratSqrt (dot v v)) v

/-- State of a `CNewtonUpdateOnSubspace` object (fields named as in the
source, including the members inherited from `CQuasiNewtonInvLeastSquares`). -/
structure NState where
  npt : ℕ
  nvar : ℕ
  nPtDomain : ℕ
  iSample : ℕ
  iBasis : ℕ
  BasisSize_n : ℕ
  work : List ℚ
  work2 : List ℚ
  p : List ℚ
  X : List (List ℚ)
  R : List (List ℚ)
  p_R : List ℚ
  pn_R : List ℚ
  EigenR : List (List ℚ)
  ProjectedJacobian : List (List ℚ)
  NewtonInverseMatrix : List (List ℚ)
  deriving Repr, DecidableEq

/-- `std::swap(l[i], l[j])` on a vector of buffers. -/
def swapSlots (l : List (List ℚ)) (i j : ℕ) : List (List ℚ) :=
  (l.set i (l.getD j [])).set j (l.getD i [])

/-- The loop body iteration of `shiftHistoryLeft`: swap slots `i-1` and `i`
for `i = start, …, start+fuel-1`. -/
def shiftLoop : ℕ → ℕ → List (List ℚ) → List (List ℚ)
  | 0, _, h => h
  | fuel+1, i, h => shiftLoop fuel (i+1) (swapSlots h (i-1) i)

/-- `shiftHistoryLeft(history)`: the source loop of adjacent
`std::swap(history[i-1], history[i])` for `i = 1, …, size-1`. -/
def shiftHistoryLeft (h : List (List ℚ)) : List (List ℚ) :=
  shiftLoop (h.length - 1) 1 h

/-- Lines 284–293 of `compute()`: shift the window left if it is full, then
swap the new delta into slot `iSample+1`.  Returns the new window, the new
`iSample`, and the buffer freed by the swap (the old content of the slot). -/
def insertDelta (X : List (List ℚ)) (iSample : ℕ) (d : List ℚ) :
    List (List ℚ) × ℕ × List ℚ :=
  let full := iSample + 1 = X.length
  let X1 := if full then shiftHistoryLeft X else X
  let iS1 := if full then iSample - 1 else iSample
  let freed := X1.getD (iS1 + 1) []
  (X1.set (iS1 + 1) d, iS1 + 1, freed)

/-- `projectOntoSubspace()` (lines 86–98): save `p_R` to `pn_R`, project the
iterate in `work` onto the basis columns of `EigenR`, reconstruct `p`.
Note that the dot products run over the full buffers (all `npt*nvar`
entries). -/
def projectOntoSubspace (s : NState) : NState :=
  let pn_R' := s.p_R
  let p_R' := matTvec s.EigenR s.work
  let p' := colsMulVec s.EigenR p_R' s.p.length
  { s with pn_R := pn_R', p_R := p_R', p := p' }

/-- `updateProjectedSolution()` (lines 100–114). -/
def updateProjectedSolution (s : NState) : NState :=
  let s1 := if s.EigenR.length > s.BasisSize_n then
      { s with pn_R := s.p_R, BasisSize_n := s.EigenR.length }
    else s
  let p_R' := vecAdd s1.pn_R (matVec s1.NewtonInverseMatrix (vecSub s1.p_R s1.pn_R))
  let p' := colsMulVec s1.EigenR p_R' s1.p.length
  { s1 with p_R := p_R', p := p' }

/-- `compute()` (lines 267–307), as a transformer on the object state.  The
returned reference (`FPresult()`) is treated separately, see `FPresult`. -/
def compute (s : NState) : NState :=
  -- lines 269–280: subtract the projected part, or zero `p` if no basis yet
  let s1 := if s.iBasis > 0 then
      let t := projectOntoSubspace s
      { t with work := vecSub t.work t.p }
    else
      { s with p := List.replicate s.p.length 0 }
  -- lines 285–293: history bookkeeping
  let d := vecSub s1.work s1.work2
  let ins := insertDelta s1.X s1.iSample d
  let s3 := { s1 with X := ins.1, iSample := ins.2.1, work2 := ins.2.2 }
  -- line 294: swap(work2, work)
  let s4 := { s3 with work2 := s3.work, work := s3.work2 }
  -- lines 296–298
  let s5 := if s4.iBasis > 0 then updateProjectedSolution s4 else s4
  -- lines 302–304
  { s5 with work := vecAdd s5.work2 s5.p }

/-- Modelled from the spec: the base fixed-point accelerator class
(`CQuasiNewtonInvLeastSquares`, not part of the sources at hand) exposes a
result accessor returning the latest corrected solution; `compute()` writes
the corrected solution into `work` (lines 302–304) and returns that
reference of that accessor. -/
def FPresult (s : NState) : List ℚ := s.work

/-- `reset()` (line 164): swap the last written sample into slot 0 and clear
the counters `iSample` and `iBasis`.  (`BasisSize_n` is not touched.) -/
def reset (s : NState) : NState :=
  { s with X := swapSlots s.X 0 s.iSample, iSample := 0, iBasis := 0 }

/-- The QR factorization service of the dense linear-algebra library
(Eigen `HouseholderQR`), an external collaborator: from the assembled window
matrix it yields the diagonal of the triangular factor (`matrixQR().diagonal()`)
and the first column of the orthogonal factor (`householderQ() * e_1`). -/
def QROracle : Type := List (List ℚ) → List ℚ × List ℚ

/-- Lines 191–196 of `checkBasis`: the Krylov criterion quotients.  Slot `i`
is `Rdiag(i)/Rdiag(i+1)` when `Rdiag(i+1) ≠ 0`, else it keeps its
zero-initialized value.  A read of a diagonal index outside the diagonal of the factor (which has only `min(npt*nvar, nsample)` entries) is out of bounds;
the first such index is reported as the error. -/
def krylovLoop (Rdiag : List ℚ) (i : ℕ) : ℕ → Except ℕ (List ℚ)
  | 0 => Except.ok []
  | slots+1 =>
    match Rdiag.get? (i+1) with
    | none => Except.error (i+1)
    | some d1 =>
      let q := if d1 ≠ 0 then Rdiag.getD i 0 / d1 else 0
      match krylovLoop Rdiag (i+1) slots with
      | Except.error e => Except.error e
      | Except.ok qs => Except.ok (q :: qs)

/-- The quotient vector of lines 191–196, starting at slot 0. -/
def krylovQuotients (Rdiag : List ℚ) (slots : ℕ) : Except ℕ (List ℚ) :=
  krylovLoop Rdiag 0 slots

/-- Lines 203–219 of `checkBasis`: accept the candidate vector.  Increment
`iBasis`, take the first column of `Q` as the new basis vector, re-orthogonalize
it against every preceding basis vector, normalize, and rebuild `EigenR` from
the first `iBasis` basis vectors. -/
def growBasis (s : NState) (Qcol0 : List ℚ) : NState :=
  let iB := s.iBasis + 1
  let v := (List.range (iB - 1)).foldl
      (fun v i => vecSub v (smul (dot v (s.R.getD i [])) (s.R.getD i []))) Qcol0
  let vN := normalize v
  let R' := s.R.set (iB - 1) vN
  let EigenR' := (List.range iB).map (fun i => R'.getD i [])
  { s with iBasis := iB, R := R', EigenR := EigenR' }

/-- `checkBasis(KrylovCriterionValue)` (lines 169–229).  Returns the boolean result of the source together with the updated state; an `Except.error i` records
an out-of-bounds read of the QR diagonal at index `i`. -/
def checkBasis (qr : QROracle) (s : NState) (K : ℚ) : Except ℕ (Bool × NState) :=
  if s.iSample + 1 < s.X.length then Except.ok (false, s)
  else if s.iBasis < s.R.length then
    -- lines 178–184: the columns of EigenX are the delta vectors of the window
    let qrResult := qr s.X
    let Rdiag := qrResult.1
    match krylovQuotients Rdiag (s.X.length - 1) with
    | Except.error i => Except.error i
    | Except.ok qs =>
      let q0 := qs.getD 0 0
      if |q0| > K ∧ ¬ (|q0| ≠ |q0|) then Except.ok (true, growBasis s qrResult.2)
      else Except.ok (false, s)
  else Except.ok (false, s)

/-- How `resize` can fail: the explicit parameter check (`SU2_MPI::Error`) or
an out-of-bounds write. -/
inductive ResizeErr where
  | invalidParams
  | oobWrite
  deriving Repr, DecidableEq

/-- The state produced by a successful `resize` (lines 134–158).  Freshly
allocated buffers are modelled as zero-filled; the source explicitly zeroes
`X[0]` and `R[0]`. -/
def resizeState (nsample nbasis npt nvar nptdomain : ℕ) : NState :=
  let n := npt * nvar
  let zv : List ℚ := List.replicate n 0
  { npt := npt
    nvar := nvar
    nPtDomain := if nptdomain ≠ 0 then nptdomain else npt
    iSample := 0
    iBasis := 0
    BasisSize_n := 0
    work := zv
    work2 := zv
    p := zv
    X := (List.replicate nsample zv).set 0 zv
    R := (List.replicate nbasis zv).set 0 zv
    p_R := []
    pn_R := []
    EigenR := [zv]
    ProjectedJacobian := []
    NewtonInverseMatrix := [] }

/-- `resize(nsample, nbasis, npt, nvar, nptdomain)` (lines 134–158).  After the
documented parameter check, `X[0] = 0` and `R[0] = 0` are executed
unconditionally; the write to `R[0]` is out of bounds when `nbasis = 0`
(`X[0]` is covered by `nsample ≥ 2`). -/
def resize (nsample nbasis npt nvar nptdomain : ℕ) : Except ResizeErr NState :=
  if nptdomain > npt ∨ nsample < 2 then Except.error ResizeErr.invalidParams
  else if nbasis = 0 then Except.error ResizeErr.oobWrite
  else Except.ok (resizeState nsample nbasis npt nvar nptdomain)

/-- The square matrix `(I - ProjectedJacobian)⁻¹` computed by the dense
linear-algebra library (`Eigen::MatrixXd::inverse()`), written with the
adjugate formula so that it is executable over `ℚ`. -/
def denseInverse {k : ℕ} (A : Matrix (Fin k) (Fin k) ℚ) : Matrix (Fin k) (Fin k) ℚ :=
  (A.det)⁻¹ • A.adjugate

/-- View a list-of-rows square matrix of size `k` as a `Matrix`. -/
def listToMat (k : ℕ) (rows : List (List ℚ)) : Matrix (Fin k) (Fin k) ℚ :=
  Matrix.of (fun i j => (rows.getD i []).getD j 0)

/-- Store a `Matrix` as a list of rows. -/
def matToList {k : ℕ} (M : Matrix (Fin k) (Fin k) ℚ) : List (List ℚ) :=
  (List.finRange k).map (fun i => (List.finRange k).map (fun j => M i j))

/-- Lines 242–253: the projected Jacobian
`ProjectedJacobian(i,j) = EigenR.col(i)ᵀ · DR.col(j)` where
`DR.col(j)` is the vector–Jacobian product the AD oracle returns for the seed
vector `R[j]`. -/
def projectedJacobian (vjp : List ℚ → List ℚ) (s : NState) :
    Matrix (Fin s.iBasis) (Fin s.iBasis) ℚ :=
  Matrix.of (fun i j => dot (s.EigenR.getD i []) (vjp (s.R.getD j [])))

/-- `computeProjectedJacobian` (lines 235–261) as a state transformer: after
the loop, line 258 overwrites `ProjectedJacobian` with
`I - ProjectedJacobian` and line 259 stores its dense inverse in
`NewtonInverseMatrix`. -/
def computeProjectedJacobianS (vjp : List ℚ → List ℚ) (s : NState) : NState :=
  let IJ := (1 : Matrix (Fin s.iBasis) (Fin s.iBasis) ℚ) - projectedJacobian vjp s
  { s with ProjectedJacobian := matToList IJ,
           NewtonInverseMatrix := matToList (denseInverse IJ) }

/-- One outer-solver call touching the basis state: either a
`checkBasis` test with a threshold, or one `compute` cycle. -/
inductive Call where
  | chk (K : ℚ)
  | cmp

/-- A sequence of `checkBasis` / `compute` calls (no `resize` or `reset`). -/
def runCalls (qr : QROracle) : List Call → NState → Except ℕ NState
  | [], s => Except.ok s
  | Call.chk K :: cs, s =>
    match checkBasis qr s K with
    | Except.error i => Except.error i
    | Except.ok (_, s') => runCalls qr cs s'
  | Call.cmp :: cs, s => runCalls qr cs (compute s)

/-- Modelled from the spec: the outer solver stores the new iterate of the base accelerator into the exposed input buffer `work` before calling `compute`. -/
def setWork (s : NState) (w : List ℚ) : NState := { s with work := w }

/-- Modelled from the spec: the distributed inner product demanded by §5 —
sum only over the locally owned sub-range (the first `nPtDomain * nvar`
entries of the flattened buffers); the collective reduction then adds the
contributions of the other processes. -/
def domainDot (nPtDomain nvar : ℕ) (a b : List ℚ) : ℚ :=
  dot (a.take (nPtDomain * nvar)) (b.take (nPtDomain * nvar))

/-! ### A NaN-aware scalar for the Krylov-criterion guard

`RD` models an IEEE double as either NaN or a finite rational value, enough to
state how lines 191–200 treat a NaN diagonal entry or quotient. -/

/-- An IEEE scalar: NaN or a (finite) value. -/
inductive RD where
  | nan
  | val (q : ℚ)
  deriving Repr, DecidableEq

/-- IEEE `fabs`. -/
def RD.abs : RD → RD
  | RD.nan => RD.nan
  | RD.val q => RD.val |q|

/-- IEEE `!=` against a finite value: true whenever either side is NaN. -/
def RD.ne : RD → RD → Bool
  | RD.nan, _ => true
  | _, RD.nan => true
  | RD.val a, RD.val b => a ≠ b

/-- IEEE `>` against a finite threshold: false whenever the left side is NaN. -/
def RD.gt : RD → ℚ → Bool
  | RD.nan, _ => false
  | RD.val a, k => a > k

/-- IEEE division, with NaN absorbing (the guard has already excluded a zero
divisor). -/
def RD.div : RD → RD → RD
  | RD.nan, _ => RD.nan
  | _, RD.nan => RD.nan
  | RD.val a, RD.val b => RD.val (a / b)

/-- Lines 191–196 over the NaN-aware scalar: slot `i` of the quotient vector
(zero-initialized by the `std::vector<su2double>` resize) becomes
`Rdiag(i)/Rdiag(i+1)` exactly when `Rdiag(i+1) != 0.0` holds in IEEE
semantics (true also for a NaN entry). -/
def krylovQuotientsD (Rdiag : List RD) (slots : ℕ) : List RD :=
  (List.range slots).map (fun i =>
    if RD.ne (Rdiag.getD (i+1) (RD.val 0)) (RD.val 0)
    then RD.div (Rdiag.getD i (RD.val 0)) (Rdiag.getD (i+1) (RD.val 0))
    else RD.val 0)

/-- Lines 198–200 over the NaN-aware scalar: the acceptance test
`abs(q[0]) > K && !(abs(q[0]) != abs(q[0]))`. -/
def krylovAcceptD (qs : List RD) (K : ℚ) : Bool :=
  RD.gt (RD.abs (qs.getD 0 (RD.val 0))) K &&
    !(RD.ne (RD.abs (qs.getD 0 (RD.val 0))) (RD.abs (qs.getD 0 (RD.val 0))))

/-! ## Supporting lemmas -/

theorem vecAdd_replicate_zero (a : List ℚ) :
    vecAdd a (List.replicate a.length 0) = a := by
  induction a with
  | nil => rfl
  | cons x xs ih => simpa [vecAdd, List.replicate_succ] using ih

theorem swapSlots_length (l : List (List ℚ)) (i j : ℕ) :
    (swapSlots l i j).length = l.length := by
  simp [swapSlots]

theorem shiftLoop_length (fuel : ℕ) : ∀ i h, (shiftLoop fuel i h).length = h.length := by
  induction fuel with
  | zero => intro i h; rfl
  | succ n ih => intro i h; rw [shiftLoop, ih, swapSlots_length]

theorem shiftHistoryLeft_length (h : List (List ℚ)) :
    (shiftHistoryLeft h).length = h.length := by
  rw [shiftHistoryLeft, shiftLoop_length]

theorem swapSlots_get?_zero (l : List (List ℚ)) (j : ℕ) (hj : j < l.length) :
    (swapSlots l 0 j).get? 0 = l.get? j := by
  have h0 : 0 < l.length := Nat.lt_of_le_of_lt (Nat.zero_le _) hj
  have hx : l.get? j = some (l.get ⟨j, hj⟩) := List.get?_eq_get hj
  set x := l.get ⟨j, hj⟩ with hxdef
  by_cases hj0 : j = 0
  · subst hj0
    rw [swapSlots, List.get?_set_eq_of_lt _ (by simpa using h0), hx]
    have : l.getD 0 [] = x := by
      show (l.get? 0).getD [] = x
      rw [hx]; rfl
    rw [this]
  · rw [swapSlots, List.get?_set_ne _ _ hj0,
      List.get?_set_eq_of_lt _ h0, hx]
    have : l.getD j [] = x := by
      show (l.get? j).getD [] = x
      rw [hx]; rfl
    rw [this]

theorem reset_BasisSize_n (s : NState) : (reset s).BasisSize_n = s.BasisSize_n := rfl

theorem compute_iBasis (s : NState) : (compute s).iBasis = s.iBasis := by
  by_cases h1 : s.iBasis > 0 <;> by_cases h2 : s.BasisSize_n < s.EigenR.length <;>
    simp [compute, projectOntoSubspace, updateProjectedSolution, insertDelta, h1, h2]

theorem compute_R (s : NState) : (compute s).R = s.R := by
  by_cases h1 : s.iBasis > 0 <;> by_cases h2 : s.BasisSize_n < s.EigenR.length <;>
    simp [compute, projectOntoSubspace, updateProjectedSolution, insertDelta, h1, h2]

theorem compute_EigenR (s : NState) : (compute s).EigenR = s.EigenR := by
  by_cases h1 : s.iBasis > 0 <;> by_cases h2 : s.BasisSize_n < s.EigenR.length <;>
    simp [compute, projectOntoSubspace, updateProjectedSolution, insertDelta, h1, h2]

theorem compute_BasisSize_n (s : NState) :
    (compute s).BasisSize_n =
      if s.iBasis > 0 ∧ s.BasisSize_n < s.EigenR.length
      then s.EigenR.length else s.BasisSize_n := by
  by_cases h1 : s.iBasis > 0 <;> by_cases h2 : s.BasisSize_n < s.EigenR.length <;>
    simp [compute, projectOntoSubspace, updateProjectedSolution, insertDelta, h1, h2]

theorem compute_iSample (s : NState) :
    (compute s).iSample =
      (if s.iSample + 1 = s.X.length then s.iSample - 1 else s.iSample) + 1 := by
  by_cases h1 : s.iBasis > 0 <;> by_cases h2 : s.BasisSize_n < s.EigenR.length <;>
    by_cases h3 : s.iSample + 1 = s.X.length <;>
      simp [compute, projectOntoSubspace, updateProjectedSolution, insertDelta, h1, h2, h3]

theorem compute_X_length (s : NState) : (compute s).X.length = s.X.length := by
  by_cases h1 : s.iBasis > 0 <;> by_cases h2 : s.BasisSize_n < s.EigenR.length <;>
    by_cases h3 : s.iSample + 1 = s.X.length <;>
      simp [compute, projectOntoSubspace, updateProjectedSolution, insertDelta, h1, h2, h3,
        shiftHistoryLeft_length]

theorem growBasis_iBasis (s : NState) (v : List ℚ) :
    (growBasis s v).iBasis = s.iBasis + 1 := rfl

theorem growBasis_EigenR_length (s : NState) (v : List ℚ) :
    (growBasis s v).EigenR.length = s.iBasis + 1 := by
  simp [growBasis]

theorem growBasis_R_length (s : NState) (v : List ℚ) :
    (growBasis s v).R.length = s.R.length := by
  simp [growBasis]

theorem growBasis_BasisSize_n (s : NState) (v : List ℚ) :
    (growBasis s v).BasisSize_n = s.BasisSize_n := rfl

/-! ## Claims -/

/-- C1: for every configured object with zero active basis vectors
(`iBasis = 0`), one `compute()` call returns the output of the base accelerator unmodified
unmodified — the returned buffer and the `work` buffer equal the iterate that
was stored before the call — and leaves `p` equal to the zero vector of the
solution size. -/
theorem claim_C1 (s : NState) (h0 : s.iBasis = 0)
    (hp : s.p.length = s.npt * s.nvar) (hw : s.work.length = s.p.length) :
    FPresult (compute s) = s.work ∧ (compute s).work = s.work ∧
      (compute s).p = List.replicate (s.npt * s.nvar) 0 := by
  have hb : ¬ s.iBasis > 0 := by omega
  have hz : List.replicate s.p.length (0 : ℚ) = List.replicate s.work.length 0 := by
    rw [hw]
  simp only [compute, FPresult, if_neg hb]
  refine ⟨?_, ?_, ?_⟩ <;>
    simp [hz, ← hp, vecAdd_replicate_zero]

/-- A concrete configured state with `iBasis = 0` for the C1 witness. -/
def wC1 : NState :=
  { npt := 1, nvar := 1, nPtDomain := 1, iSample := 0, iBasis := 0,
    BasisSize_n := 0, work := [3], work2 := [0], p := [5], X := [[0],[0]], R := [[0]],
    p_R := [], pn_R := [], EigenR := [[0]], ProjectedJacobian := [],
    NewtonInverseMatrix := [] }

theorem claim_C1_witness :
    FPresult (compute wC1) = wC1.work ∧ (compute wC1).work = wC1.work ∧
      (compute wC1).p = List.replicate (wC1.npt * wC1.nvar) 0 :=
  claim_C1 wC1 rfl rfl rfl

/-- C3 (amended): after `reset()`, the active basis count `iBasis` and the
sample counter `iSample` are zero and slot 0 of the history window holds the
last sample written before the reset, but the basis-growth tracker
`BasisSize_n` is left unchanged rather than cleared. -/
theorem claim_C3_amended (s : NState) (h : s.iSample < s.X.length) :
    (reset s).iBasis = 0 ∧ (reset s).iSample = 0 ∧
      (reset s).X.get? 0 = s.X.get? s.iSample ∧
      (reset s).BasisSize_n = s.BasisSize_n :=
  ⟨rfl, rfl, swapSlots_get?_zero s.X s.iSample h, rfl⟩

theorem claim_C3_amended_witness :
    (reset wC1).iBasis = 0 ∧ (reset wC1).iSample = 0 ∧
      (reset wC1).X.get? 0 = wC1.X.get? wC1.iSample ∧
      (reset wC1).BasisSize_n = wC1.BasisSize_n :=
  claim_C3_amended wC1 (by decide)

/-- The QR oracle consistent with the Eigen Householder factorization of the
window matrix with columns `[1,0]` and `[0,1/100]`. -/
def qrG : QROracle := fun _ => ([1, 1/100], [1, 0])

/-- A vector–Jacobian-product oracle: the underlying map scales by 1/2. -/
def vjpHalf : List ℚ → List ℚ := fun v => v.map (fun x => x * (1/2))

/-- A reachable pre-reset state: `resize(2,1,2,1)`, two `compute` cycles
(the outer solver storing iterates `[1,0]` then `[1,1/100]` into `work`),
a successful `checkBasis` (threshold 50), `computeProjectedJacobian`, and one
more `compute` cycle, which sets `BasisSize_n = 1`. -/
def tC3a : NState := compute (setWork (resizeState 2 1 2 1 0) [1, 0])

def tC3b : NState := compute (setWork tC3a [1, 1/100])

def tC3c : NState :=
  match checkBasis qrG tC3b 50 with
  | Except.ok r => r.2
  | Except.error _ => tC3b

def sC3 : NState := compute (computeProjectedJacobianS vjpHalf tC3c)

theorem tC3b_proj : tC3b.iSample = 1 ∧ tC3b.X.length = 2 ∧ tC3b.iBasis = 0 ∧
    tC3b.R.length = 1 ∧ tC3b.BasisSize_n = 0 := by
  have ha1 : tC3a.iSample = 1 := by
    rw [tC3a, compute_iSample]; simp [setWork, resizeState]
  have ha2 : tC3a.X.length = 2 := by
    rw [tC3a, compute_X_length]; simp [setWork, resizeState]
  have ha3 : tC3a.iBasis = 0 := by
    rw [tC3a, compute_iBasis]; simp [setWork, resizeState]
  have ha4 : tC3a.R.length = 1 := by
    rw [tC3a, compute_R]; simp [setWork, resizeState]
  have ha5 : tC3a.BasisSize_n = 0 := by
    rw [tC3a, compute_BasisSize_n]; simp [setWork, resizeState]
  refine ⟨?_, ?_, ?_, ?_, ?_⟩
  · rw [tC3b, compute_iSample]; simp [setWork, ha1, ha2]
  · rw [tC3b, compute_X_length]; simp [setWork, ha2]
  · rw [tC3b, compute_iBasis]; simp [setWork, ha3]
  · rw [tC3b, compute_R]; simp [setWork, ha4]
  · rw [tC3b, compute_BasisSize_n]; simp [setWork, ha3, ha5]

theorem tC3c_eq : tC3c = growBasis tC3b [1, 0] := by
  obtain ⟨h1, h2, h3, h4, h5⟩ := tC3b_proj
  have hchk : checkBasis qrG tC3b 50 = Except.ok (true, growBasis tC3b [1, 0]) := by
    rw [checkBasis, h1, h2, h3, h4]
    norm_num [qrG, krylovQuotients, krylovLoop]
  rw [tC3c, hchk]

/-- C3, counterexample: on the reachable state `sC3` (whose `BasisSize_n` is 1
after a basis growth followed by a `compute` cycle), `reset()` leaves the
basis-growth tracker `BasisSize_n` at 1, not 0. -/
theorem claim_C3_counterexample :
    (reset sC3).BasisSize_n = 1 ∧ (reset sC3).BasisSize_n ≠ 0 := by
  obtain ⟨h1, h2, h3, h4, h5⟩ := tC3b_proj
  have hgb : tC3c.iBasis = 1 := by rw [tC3c_eq, growBasis_iBasis, h3]
  have hgl : tC3c.EigenR.length = 1 := by rw [tC3c_eq, growBasis_EigenR_length, h3]
  have hgn : tC3c.BasisSize_n = 0 := by rw [tC3c_eq, growBasis_BasisSize_n, h5]
  have hc1 : (computeProjectedJacobianS vjpHalf tC3c).iBasis = 1 := hgb
  have hc2 : (computeProjectedJacobianS vjpHalf tC3c).EigenR.length = 1 := hgl
  have hc3 : (computeProjectedJacobianS vjpHalf tC3c).BasisSize_n = 0 := hgn
  have : sC3.BasisSize_n = 1 := by
    rw [sC3, compute_BasisSize_n, hc1, hc2, hc3]
    norm_num
  exact ⟨by rw [reset_BasisSize_n, this], by rw [reset_BasisSize_n, this]; decide⟩

/-- C9: `resize` additionally requires `nbasis ≥ 1`: with parameters passing
the documented checks (`nptdomain ≤ npt`, `nsample ≥ 2`) but `nbasis = 0`,
the unconditional write `R[0] = 0` is out of bounds; for every `nbasis ≥ 1`
the call succeeds (the write is in bounds). -/
theorem claim_C9 (nsample nbasis npt nvar nptdomain : ℕ)
    (hdom : nptdomain ≤ npt) (hs : 2 ≤ nsample) :
    resize nsample nbasis npt nvar nptdomain =
      if nbasis = 0 then Except.error ResizeErr.oobWrite
      else Except.ok (resizeState nsample nbasis npt nvar nptdomain) := by
  rw [resize]
  have hok : ¬ (nptdomain > npt ∨ nsample < 2) := by omega
  simp [hok]

theorem claim_C9_witness :
    resize 2 0 3 1 0 = Except.error ResizeErr.oobWrite ∧
      resize 2 1 3 1 0 = Except.ok (resizeState 2 1 3 1 0) := by
  refine ⟨?_, ?_⟩
  · rw [claim_C9 2 0 3 1 0 (by decide) (by decide)]; simp
  · rw [claim_C9 2 1 3 1 0 (by decide) (by decide)]; simp

theorem krylovLoop_error (Rdiag : List ℚ) :
    ∀ slots i, i + 1 ≤ Rdiag.length → Rdiag.length ≤ i + slots →
      krylovLoop Rdiag i slots = Except.error Rdiag.length := by
  intro slots
  induction slots with
  | zero => intro i h1 h2; omega
  | succ n ih =>
    intro i h1 h2
    by_cases he : i + 1 = Rdiag.length
    · have : Rdiag.get? (i+1) = none := by
        rw [List.get?_eq_none]; omega
      rw [krylovLoop, this, he]
    · have hlt : i + 1 < Rdiag.length := by omega
      have : Rdiag.get? (i+1) = some (Rdiag.get ⟨i+1, hlt⟩) := List.get?_eq_get hlt
      rw [krylovLoop, this]
      simp only []
      rw [ih (i+1) (by omega) (by omega)]

theorem krylovLoop_ok (Rdiag : List ℚ) :
    ∀ slots i, i + slots < Rdiag.length →
      ∃ qs, krylovLoop Rdiag i slots = Except.ok qs := by
  intro slots
  induction slots with
  | zero => intro i _; exact ⟨[], rfl⟩
  | succ n ih =>
    intro i h
    have hlt : i + 1 < Rdiag.length := by omega
    have hg : Rdiag.get? (i+1) = some (Rdiag.get ⟨i+1, hlt⟩) := List.get?_eq_get hlt
    obtain ⟨qs, hqs⟩ := ih (i+1) (by omega)
    refine ⟨(if Rdiag.get ⟨i+1, hlt⟩ ≠ 0
        then Rdiag.getD i 0 / Rdiag.get ⟨i+1, hlt⟩ else 0) :: qs, ?_⟩
    rw [krylovLoop, hg]
    simp only [hqs]

/-- C10: `checkBasis` requires `npt·nvar ≥ nsample` to stay in bounds.  With
the Eigen fact that the QR diagonal has `min(npt·nvar, nsample)` entries:
when the window is full, spare basis capacity remains and
`1 ≤ npt·nvar < nsample`, the quotient loop reads the diagonal out of bounds,
the first time at index `npt·nvar`; when `npt·nvar ≥ nsample`, every diagonal
access is in bounds and `checkBasis` returns normally. -/
theorem claim_C10 (qr : QROracle) (s : NState) (K : ℚ)
    (hlen : (qr s.X).1.length = min (s.npt * s.nvar) s.X.length) :
    (s.npt * s.nvar < s.X.length → 1 ≤ s.npt * s.nvar →
      s.X.length ≤ s.iSample + 1 → s.iBasis < s.R.length →
      checkBasis qr s K = Except.error (s.npt * s.nvar)) ∧
    (s.X.length ≤ s.npt * s.nvar →
      ∃ r, checkBasis qr s K = Except.ok r) := by
  obtain ⟨m, hmv⟩ : ∃ m, s.npt * s.nvar = m := ⟨_, rfl⟩
  rw [hmv] at hlen ⊢
  constructor
  · intro hm h1 hfull hspare
    have hmin : (qr s.X).1.length = m := by omega
    have herr : krylovQuotients (qr s.X).1 (s.X.length - 1) =
        Except.error m := by
      rw [krylovQuotients, ← hmin, krylovLoop_error] <;> omega
    rw [checkBasis]
    rw [if_neg (show ¬ s.iSample + 1 < s.X.length by omega), if_pos hspare]
    simp only [herr]
  · intro hm
    by_cases hw : s.iSample + 1 < s.X.length
    · exact ⟨_, by rw [checkBasis, if_pos hw]⟩
    · by_cases hspare : s.iBasis < s.R.length
      · obtain ⟨qs, hqs⟩ :
            ∃ qs, krylovLoop (qr s.X).1 0 (s.X.length - 1) = Except.ok qs := by
          rcases Nat.eq_zero_or_pos s.X.length with h0 | h0
          · rw [h0]; exact ⟨[], rfl⟩
          · exact krylovLoop_ok (qr s.X).1 (s.X.length - 1) 0 (by omega)
        have hok : krylovQuotients (qr s.X).1 (s.X.length - 1) = Except.ok qs := hqs
        rw [checkBasis, if_neg hw, if_pos hspare]
        simp only [hok]
        by_cases hacc : |qs.getD 0 0| > K ∧ ¬ (|qs.getD 0 0| ≠ |qs.getD 0 0|)
        · exact ⟨_, by rw [if_pos hacc]⟩
        · exact ⟨_, by rw [if_neg hacc]⟩
      · exact ⟨_, by rw [checkBasis, if_neg hw, if_neg hspare]⟩

/-- The one-grid-point, one-variable configuration of the C2 scenario:
`nsample = 2`, `nbasis = 1`, window holding the delta sequence `[1.0, 0.01]`. -/
def sC2 : NState :=
  { npt := 1, nvar := 1, nPtDomain := 1, iSample := 1, iBasis := 0,
    BasisSize_n := 0, work := [0], work2 := [0], p := [0], X := [[1], [1/100]],
    R := [[0]], p_R := [], pn_R := [], EigenR := [[0]], ProjectedJacobian := [],
    NewtonInverseMatrix := [] }

/-- A QR oracle obeying the Eigen diagonal-length fact for a 1×2 window
matrix: the diagonal has `min(1, 2) = 1` entry. -/
def qrDiag1 : QROracle := fun _ => ([1], [1])

theorem claim_C10_witness :
    (sC2.npt * sC2.nvar < sC2.X.length → 1 ≤ sC2.npt * sC2.nvar →
      sC2.X.length ≤ sC2.iSample + 1 → sC2.iBasis < sC2.R.length →
      checkBasis qrDiag1 sC2 50 = Except.error (sC2.npt * sC2.nvar)) ∧
    (sC2.X.length ≤ sC2.npt * sC2.nvar →
      ∃ r, checkBasis qrDiag1 sC2 50 = Except.ok r) :=
  claim_C10 qrDiag1 sC2 50 rfl

/-- C2, counterexample: in the configuration the claim describes (one grid
point, one variable, `nsample = 2`, window `[1.0, 0.01]`, `iBasis = 0`), the
quotient loop of `checkBasis` reads the QR diagonal out of bounds at index
`1 = npt·nvar` (the diagonal of the 1×2 factor has a single entry), so no
quotient value 100 is ever produced and no comparison with the threshold
happens. -/
theorem claim_C2_counterexample :
    checkBasis qrDiag1 sC2 50 = Except.error 1 ∧ sC2.npt * sC2.nvar = 1 := by
  constructor
  · rw [checkBasis]
    norm_num [sC2, qrDiag1, krylovQuotients, krylovLoop]
  · rfl

/-- The minimally-repaired C2 configuration: the same window contents spread
over two grid points (`npt·nvar = 2 = nsample`), deltas `[1,0]` and
`[0,1/100]`. -/
def sC2w : NState :=
  { npt := 2, nvar := 1, nPtDomain := 2, iSample := 1, iBasis := 0,
    BasisSize_n := 0, work := [0,0], work2 := [0,0], p := [0,0],
    X := [[1,0], [0,1/100]], R := [[0,0]], p_R := [], pn_R := [],
    EigenR := [[0,0]], ProjectedJacobian := [], NewtonInverseMatrix := [] }

/-- C2 (amended): with the window of the scenario held on two grid points
(so that `npt·nvar ≥ nsample` as C10 requires), for any QR factorization the
library can return for the window matrix (orthonormal columns `q0v`, `q1v`,
upper-triangular entries `d0, r01, d1`), the Krylov quotient is `d0/d1` with
`|d0/d1| = 100`; `checkBasis` with threshold 50 returns true and raises
`iBasis` to 1, and with threshold 500 returns false and leaves the state
unchanged. -/
theorem claim_C2_amended (qr : QROracle) (qc q0v q1v : List ℚ) (d0 r01 d1 : ℚ)
    (hqr : qr sC2w.X = ([d0, d1], qc))
    (hq0 : q0v.length = 2) (hq1 : q1v.length = 2)
    (hn0 : dot q0v q0v = 1) (hn1 : dot q1v q1v = 1) (ho : dot q0v q1v = 0)
    (hx0 : [1, 0] = smul d0 q0v)
    (hx1 : [0, 1/100] = vecAdd (smul r01 q0v) (smul d1 q1v)) :
    krylovQuotients [d0, d1] 1 = Except.ok [d0/d1] ∧ |d0/d1| = 100 ∧
      checkBasis qr sC2w 50 = Except.ok (true, growBasis sC2w qc) ∧
      (growBasis sC2w qc).iBasis = 1 ∧
      checkBasis qr sC2w 500 = Except.ok (false, sC2w) := by
  obtain ⟨a, b, rfl⟩ := List.length_eq_two.mp hq0
  obtain ⟨c, e, rfl⟩ := List.length_eq_two.mp hq1
  simp only [dot, smul, vecAdd, List.zipWith, List.map, List.sum_cons,
    List.sum_nil, add_zero, List.cons.injEq, and_true] at hn0 hn1 ho hx0 hx1
  obtain ⟨hx0a, hx0b⟩ := hx0
  obtain ⟨hx1a, hx1b⟩ := hx1
  have hd0sq : d0 * d0 = 1 := by
    calc d0 * d0 = d0 * d0 * (a * a + b * b) := by rw [hn0]; ring
      _ = (d0 * a) * (d0 * a) + (d0 * b) * (d0 * b) := by ring
      _ = 1 := by rw [← hx0a, ← hx0b]; ring
  have hd0ne : d0 ≠ 0 := by
    intro h; rw [h] at hd0sq; norm_num at hd0sq
  have hb : b = 0 := by
    rcases mul_eq_zero.mp hx0b.symm with h | h
    · exact absurd h hd0ne
    · exact h
  have ha2 : a * a = 1 := by rw [hb] at hn0; linarith
  have hane : a ≠ 0 := by
    intro h; rw [h] at ha2; norm_num at ha2
  have hc : c = 0 := by
    rw [hb] at ho
    rcases mul_eq_zero.mp (by linarith : a * c = 0) with h | h
    · exact absurd h hane
    · exact h
  have he2 : e * e = 1 := by rw [hc] at hn1; linarith
  have hd1e : d1 * e = 1/100 := by rw [hb] at hx1b; linarith
  have hd1sq : d1 * d1 = 1/10000 := by
    calc d1 * d1 = d1 * d1 * (e * e) := by rw [he2]; ring
      _ = (d1 * e) * (d1 * e) := by ring
      _ = 1/10000 := by rw [hd1e]; norm_num
  have hd1ne : d1 ≠ 0 := by
    intro h; rw [h] at hd1sq; norm_num at hd1sq
  have hqsq : (d0/d1) * (d0/d1) = 10000 := by
    rw [div_mul_div_comm, hd0sq, hd1sq]; norm_num
  have habs : |d0/d1| = 100 := by
    have hfac : (d0/d1 - 100) * (d0/d1 + 100) = 0 := by nlinarith [hqsq]
    rcases mul_eq_zero.mp hfac with h | h
    · have : d0/d1 = 100 := by linarith
      rw [this]; norm_num
    · have : d0/d1 = -100 := by linarith
      rw [this]; norm_num
  have hkq : krylovQuotients [d0, d1] 1 = Except.ok [d0/d1] := by
    rw [krylovQuotients, krylovLoop]
    simp [hd1ne, krylovLoop]
  have hXlen : sC2w.X.length - 1 = 1 := by norm_num [sC2w]
  have e1 : ¬ (sC2w.iSample + 1 < sC2w.X.length) := by norm_num [sC2w]
  have e2 : sC2w.iBasis < sC2w.R.length := by norm_num [sC2w]
  have hgd : ([d0/d1] : List ℚ).getD 0 0 = d0/d1 := rfl
  refine ⟨hkq, habs, ?_, rfl, ?_⟩
  · rw [checkBasis, if_neg e1, if_pos e2]
    rw [hqr]
    simp only [hXlen, hkq]
    rw [if_pos ⟨by rw [hgd, habs]; norm_num, by rw [hgd]; simp⟩]
  · rw [checkBasis, if_neg e1, if_pos e2]
    rw [hqr]
    simp only [hXlen, hkq]
    rw [if_neg ?hneg]
    case hneg =>
      rw [hgd, habs]
      norm_num

theorem claim_C2_amended_witness :
    krylovQuotients [1, 1/100] 1 = Except.ok [(1 : ℚ)/(1/100)] ∧
      |(1 : ℚ)/(1/100)| = 100 ∧
      checkBasis qrG sC2w 50 = Except.ok (true, growBasis sC2w [1, 0]) ∧
      (growBasis sC2w [1, 0]).iBasis = 1 ∧
      checkBasis qrG sC2w 500 = Except.ok (false, sC2w) :=
  claim_C2_amended qrG [1, 0] [1, 0] [0, 1] 1 0 (1/100) rfl rfl rfl
    (by norm_num [dot]) (by norm_num [dot]) (by norm_num [dot])
    (by norm_num [smul]) (by norm_num [smul, vecAdd])

theorem checkBasis_ok_cases (qr : QROracle) (s : NState) (K : ℚ) (b : Bool)
    (s' : NState) (h : checkBasis qr s K = Except.ok (b, s')) :
    (b = false ∧ s' = s) ∨
    (b = true ∧ s' = growBasis s (qr s.X).2 ∧
      s.X.length ≤ s.iSample + 1 ∧ s.iBasis < s.R.length ∧
      ∃ qs, krylovQuotients (qr s.X).1 (s.X.length - 1) = Except.ok qs ∧
        |qs.getD 0 0| > K) := by
  simp only [checkBasis] at h
  by_cases h1 : s.iSample + 1 < s.X.length
  · rw [if_pos h1] at h
    injection h with h
    injection h with hb hs
    exact Or.inl ⟨hb.symm, hs.symm⟩
  · rw [if_neg h1] at h
    by_cases h2 : s.iBasis < s.R.length
    · rw [if_pos h2] at h
      cases hk : krylovQuotients (qr s.X).1 (s.X.length - 1) with
      | error i => rw [hk] at h; cases h
      | ok qs =>
        rw [hk] at h
        simp only [] at h
        by_cases h3 : |qs.getD 0 0| > K ∧ ¬ (|qs.getD 0 0| ≠ |qs.getD 0 0|)
        · rw [if_pos h3] at h
          injection h with h
          injection h with hb hs
          exact Or.inr ⟨hb.symm, hs.symm, by omega, h2, qs, rfl, h3.1⟩
        · rw [if_neg h3] at h
          injection h with h
          injection h with hb hs
          exact Or.inl ⟨hb.symm, hs.symm⟩
    · rw [if_neg h2] at h
      injection h with h
      injection h with hb hs
      exact Or.inl ⟨hb.symm, hs.symm⟩

/-- C7: across any sequence of `checkBasis` and `compute` calls (no `resize`
or `reset` in between), the active basis count `iBasis` is non-decreasing and
never exceeds the capacity `R.size()`; a single `checkBasis` call increases it
by at most one and can increase it only when the window is full and spare
capacity remains; `compute` never changes it. -/
theorem claim_C7 (qr : QROracle) :
    (∀ s K b s', checkBasis qr s K = Except.ok (b, s') →
      s.iBasis ≤ s'.iBasis ∧ s'.iBasis ≤ s.iBasis + 1 ∧
        s'.R.length = s.R.length ∧
        (s.iBasis < s'.iBasis →
          s.X.length ≤ s.iSample + 1 ∧ s.iBasis < s.R.length)) ∧
    (∀ s, (compute s).iBasis = s.iBasis ∧ (compute s).R.length = s.R.length) ∧
    (∀ cs s s', runCalls qr cs s = Except.ok s' →
      s.iBasis ≤ s'.iBasis ∧ s'.R.length = s.R.length ∧
        (s.iBasis ≤ s.R.length → s'.iBasis ≤ s'.R.length)) := by
  have hstep : ∀ s K b s', checkBasis qr s K = Except.ok (b, s') →
      s.iBasis ≤ s'.iBasis ∧ s'.iBasis ≤ s.iBasis + 1 ∧
        s'.R.length = s.R.length ∧
        (s.iBasis < s'.iBasis →
          s.X.length ≤ s.iSample + 1 ∧ s.iBasis < s.R.length) := by
    intro s K b s' h
    rcases checkBasis_ok_cases qr s K b s' h with
      ⟨hb, rfl⟩ | ⟨hb, rfl, hfull, hspare, -⟩
    · exact ⟨le_refl _, by omega, rfl, by omega⟩
    · refine ⟨?_, ?_, growBasis_R_length s _, fun _ => ⟨hfull, hspare⟩⟩ <;>
        rw [growBasis_iBasis] <;> omega
  have hcmp : ∀ s, (compute s).iBasis = s.iBasis ∧ (compute s).R.length = s.R.length :=
    fun s => ⟨compute_iBasis s, by rw [compute_R]⟩
  refine ⟨hstep, hcmp, ?_⟩
  intro cs
  induction cs with
  | nil =>
    intro s s' h
    injection h with h
    subst h
    exact ⟨le_refl _, rfl, fun h => h⟩
  | cons c cs ih =>
    intro s s' h
    cases c with
    | chk K =>
      rw [runCalls] at h
      cases hc : checkBasis qr s K with
      | error i => rw [hc] at h; cases h
      | ok r =>
        rw [hc] at h
        simp only [] at h
        obtain ⟨hmono, hone, hlen, _⟩ := hstep s K r.1 r.2 (by rw [hc])
        obtain ⟨ih1, ih2, ih3⟩ := ih r.2 s' h
        exact ⟨le_trans hmono ih1, by omega,
          fun hinv => ih3 (by omega)⟩
    | cmp =>
      rw [runCalls] at h
      obtain ⟨hc1, hc2⟩ := hcmp s
      obtain ⟨ih1, ih2, ih3⟩ := ih (compute s) s' h
      exact ⟨by omega, by omega, fun hinv => ih3 (by omega)⟩

theorem claim_C7_witness :
    wC1.iBasis ≤ (compute wC1).iBasis ∧
      (compute wC1).R.length = wC1.R.length ∧
      (wC1.iBasis ≤ wC1.R.length →
        (compute wC1).iBasis ≤ (compute wC1).R.length) :=
  (claim_C7 qrG).2.2 [Call.cmp] wC1 (compute wC1) rfl

theorem get?_append_add (l1 l2 : List (List ℚ)) (k : ℕ) :
    (l1 ++ l2).get? (l1.length + k) = l2.get? k := by
  rw [List.get?_append_right (by omega)]
  congr 1
  omega

theorem getD_append_add (l1 l2 : List (List ℚ)) (k : ℕ) :
    (l1 ++ l2).getD (l1.length + k) [] = l2.getD k [] := by
  show ((l1 ++ l2).get? (l1.length + k)).getD [] = (l2.get? k).getD []
  rw [get?_append_add]

theorem set_append_add (l1 l2 : List (List ℚ)) (k : ℕ) (v : List ℚ) :
    (l1 ++ l2).set (l1.length + k) v = l1 ++ l2.set k v := by
  induction l1 with
  | nil => simp
  | cons x xs ih => simpa [Nat.succ_add] using ih

theorem swapSlots_append (front rest : List (List ℚ)) (x y : List ℚ) :
    swapSlots (front ++ x :: y :: rest) front.length (front.length + 1) =
      front ++ y :: x :: rest := by
  rw [swapSlots]
  have hj : (front ++ x :: y :: rest).getD (front.length + 1) [] = y :=
    getD_append_add front (x :: y :: rest) 1
  have hi : (front ++ x :: y :: rest).getD front.length [] = x := by
    have := getD_append_add front (x :: y :: rest) 0
    simpa using this
  rw [hj, hi]
  have h1 : (front ++ x :: y :: rest).set front.length y =
      front ++ y :: y :: rest := by
    have := set_append_add front (x :: y :: rest) 0 y
    simpa using this
  rw [h1, set_append_add front (y :: y :: rest) 1 x]
  rfl

theorem shiftLoop_cons (rest : List (List ℚ)) :
    ∀ (front : List (List ℚ)) (x : List ℚ),
      shiftLoop rest.length (front.length + 1) (front ++ x :: rest) =
        front ++ rest ++ [x] := by
  induction rest with
  | nil => intro front x; simp [shiftLoop]
  | cons y rest ih =>
    intro front x
    show shiftLoop (rest.length + 1) (front.length + 1) (front ++ x :: y :: rest) =
      front ++ (y :: rest) ++ [x]
    rw [shiftLoop]
    have hsw : swapSlots (front ++ x :: y :: rest) (front.length + 1 - 1)
        (front.length + 1) = front ++ y :: x :: rest := by
      simpa using swapSlots_append front rest x y
    rw [hsw]
    have hfr : front ++ y :: x :: rest = (front ++ [y]) ++ x :: rest := by simp
    have hlen : front.length + 1 + 1 = (front ++ [y]).length + 1 := by simp
    rw [hfr, hlen, ih (front ++ [y]) x]
    simp

theorem shiftHistoryLeft_eq (x : List ℚ) (xs : List (List ℚ)) :
    shiftHistoryLeft (x :: xs) = xs ++ [x] := by
  rw [shiftHistoryLeft]
  have hl : (x :: xs).length - 1 = xs.length := by simp
  rw [hl]
  have := shiftLoop_cons xs [] x
  simpa using this

theorem insertDelta_full (x : List ℚ) (xs : List (List ℚ)) (d : List ℚ)
    (hne : xs ≠ []) :
    insertDelta (x :: xs) xs.length d = (xs ++ [d], xs.length, x) := by
  have hlen : xs.length + 1 = (x :: xs).length := by simp
  have hpos : 1 ≤ xs.length := List.length_pos.mpr hne
  rw [insertDelta]
  simp only [hlen, shiftHistoryLeft_eq, eq_self_iff_true, if_true, ite_true]
  have hiS : xs.length - 1 + 1 = xs.length := by omega
  rw [hiS]
  have hset : (xs ++ [x]).set xs.length d = xs ++ [d] := by
    have := set_append_add xs [x] 0 d
    simpa using this
  have hget : (xs ++ [x]).getD xs.length [] = x := by
    have := getD_append_add xs [x] 0
    simpa using this
  rw [hset, hget]

/-- One `compute`-style insertion step on the pair (window, `iSample`). -/
def insertStep (Xi : List (List ℚ) × ℕ) (d : List ℚ) : List (List ℚ) × ℕ :=
  ((insertDelta Xi.1 Xi.2 d).1, (insertDelta Xi.1 Xi.2 d).2.1)

/-- Repeated insertion of a list of deltas. -/
def insertAll (Xi : List (List ℚ) × ℕ) (ds : List (List ℚ)) : List (List ℚ) × ℕ :=
  ds.foldl insertStep Xi

theorem insertAll_full (ds : List (List ℚ)) :
    ∀ X : List (List ℚ), 2 ≤ X.length →
      insertAll (X, X.length - 1) ds = ((X ++ ds).drop ds.length, X.length - 1) := by
  induction ds with
  | nil => intro X h2; simp [insertAll]
  | cons d rest ih =>
    intro X h2
    obtain ⟨x, xs, rfl⟩ : ∃ x xs, X = x :: xs := by
      cases X with
      | nil => simp at h2
      | cons a l => exact ⟨a, l, rfl⟩
    have hxs : xs ≠ [] := by
      intro h; rw [h] at h2; simp at h2
    have hlen1 : (x :: xs).length - 1 = xs.length := by simp
    rw [insertAll, List.foldl_cons]
    have hstep : insertStep (x :: xs, (x :: xs).length - 1) d = (xs ++ [d], xs.length) := by
      rw [insertStep, hlen1, insertDelta_full x xs d hxs]
    rw [hstep]
    have hlen2 : (xs ++ [d]).length = (x :: xs).length := by simp
    have hlen3 : xs.length = (xs ++ [d]).length - 1 := by simp
    have hih := ih (xs ++ [d]) (by simp; omega)
    rw [insertAll] at hih
    rw [hlen3, hih, hlen2]
    simp only [Prod.mk.injEq]
    refine ⟨?_, trivial⟩
    have hre : (x :: xs) ++ d :: rest = x :: (xs ++ [d] ++ rest) := by simp
    rw [hre, List.length_cons, List.drop_succ_cons]

theorem insertAll_fill (ds : List (List ℚ)) :
    ∀ (X : List (List ℚ)) (iS : ℕ), iS + 1 + ds.length ≤ X.length →
      insertAll (X, iS) ds =
        (X.take (iS+1) ++ ds ++ X.drop (iS + 1 + ds.length), iS + ds.length) := by
  induction ds with
  | nil => intro X iS h; simp [insertAll]
  | cons d rest ih =>
    intro X iS h
    have hlt : iS + 1 < X.length := by
      have := h
      simp [List.length_cons] at this
      omega
    rw [insertAll, List.foldl_cons]
    have hstep : insertStep (X, iS) d = (X.set (iS+1) d, iS + 1) := by
      rw [insertStep, insertDelta]
      simp only [if_neg (by omega : ¬ iS + 1 = X.length)]
    rw [hstep]
    have hih := ih (X.set (iS+1) d) (iS + 1)
      (by rw [List.length_set]; simp [List.length_cons] at h; omega)
    rw [insertAll] at hih
    rw [hih]
    have hsplit : X.set (iS+1) d = X.take (iS+1) ++ d :: X.drop (iS+2) := by
      rw [List.set_eq_take_cons_drop d hlt]
    have htl : (X.take (iS+1)).length = iS + 1 := by
      rw [List.length_take]; omega
    simp only [Prod.mk.injEq]
    refine ⟨?_, ?_⟩
    · rw [hsplit, List.take_append_eq_append_take, List.drop_append_eq_append_drop, htl]
      have e1 : (X.take (iS+1)).take (iS+1+1) = X.take (iS+1) := by
        apply List.take_all_of_le
        rw [htl]; omega
      have e2 : iS + 1 + 1 - (iS + 1) = 1 := by omega
      have e3 : (X.take (iS+1)).drop (iS + 1 + 1 + rest.length) = [] := by
        apply List.drop_eq_nil_of_le
        rw [htl]; omega
      have e4 : iS + 1 + 1 + rest.length - (iS + 1) = rest.length + 1 := by omega
      rw [e1, e2, e3, e4]
      have e5 : (d :: X.drop (iS+2)).drop (rest.length + 1) =
          X.drop (iS + 1 + (d :: rest).length) := by
        rw [List.drop_succ_cons, List.drop_drop]
        congr 1
        rw [List.length_cons]
        omega
      rw [e5]
      simp
    · rw [List.length_cons]
      omega

theorem insertAll_fresh (X0 ds : List (List ℚ))
    (h2 : 2 ≤ X0.length) (hk : X0.length ≤ ds.length) :
    insertAll (X0, 0) ds = (ds.drop (ds.length - X0.length), X0.length - 1) := by
  have hds : ds.take (X0.length - 1) ++ ds.drop (X0.length - 1) = ds :=
    List.take_append_drop _ _
  have hl1 : (ds.take (X0.length - 1)).length = X0.length - 1 := by
    rw [List.length_take]; omega
  have hl2 : (ds.drop (X0.length - 1)).length = ds.length - (X0.length - 1) := by
    rw [List.length_drop]
  rw [← hds, insertAll, List.foldl_append]
  have hfill := insertAll_fill (ds.take (X0.length - 1)) X0 0 (by omega)
  rw [insertAll] at hfill
  rw [hfill]
  have hdropnil : X0.drop (0 + 1 + (ds.take (X0.length - 1)).length) = [] := by
    apply List.drop_eq_nil_of_le; omega
  rw [hdropnil, List.append_nil]
  have hXlen : (X0.take 1 ++ ds.take (X0.length - 1)).length = X0.length := by
    rw [List.length_append, List.length_take, List.length_take]
    omega
  have hfull := insertAll_full (ds.drop (X0.length - 1))
    (X0.take 1 ++ ds.take (X0.length - 1)) (by omega)
  rw [insertAll] at hfull
  rw [hXlen] at hfull
  have hiS : 0 + (ds.take (X0.length - 1)).length = X0.length - 1 := by omega
  rw [hiS, hfull]
  simp only [Prod.mk.injEq]
  refine ⟨?_, trivial⟩
  rw [List.append_assoc, hds, List.drop_append_eq_append_drop]
  have e1 : (X0.take 1).drop (ds.drop (X0.length - 1)).length = [] := by
    apply List.drop_eq_nil_of_le
    rw [List.length_take]
    omega
  rw [e1, List.nil_append]
  congr 1
  simp only [List.length_drop, List.length_take]
  omega

theorem compute_X_insert (s : NState) :
    ∃ d, (compute s).X = (insertDelta s.X s.iSample d).1 ∧
      (compute s).iSample = (insertDelta s.X s.iSample d).2.1 := by
  by_cases h1 : s.iBasis > 0
  · refine ⟨vecSub (vecSub s.work
        (colsMulVec s.EigenR (matTvec s.EigenR s.work) s.p.length)) s.work2, ?_, ?_⟩ <;>
      by_cases h2 : s.BasisSize_n < s.EigenR.length <;>
        simp [compute, projectOntoSubspace, updateProjectedSolution, h1, h2]
  · refine ⟨vecSub s.work s.work2, ?_, ?_⟩ <;>
      simp [compute, projectOntoSubspace, updateProjectedSolution, h1]

/-- C8: the history window is a FIFO of capacity `nsample`.
`shiftHistoryLeft` rotates the storage left by one slot via in-place swaps
(slot `i` receives the old slot `i+1`, the last slot receives the storage of the old slot 0, and an insertion into a full window puts the new delta there);
inserting `k ≥ nsample` deltas from a fresh window retains exactly the most
recent `nsample` deltas in insertion order; `compute` performs exactly such an
insertion step on `(X, iSample)`. -/
theorem claim_C8 :
    (∀ (x : List ℚ) (xs : List (List ℚ)),
      shiftHistoryLeft (x :: xs) = xs ++ [x] ∧
      (∀ i, i < xs.length →
        (shiftHistoryLeft (x :: xs)).get? i = (x :: xs).get? (i+1)) ∧
      (shiftHistoryLeft (x :: xs)).get? xs.length = some x) ∧
    (∀ (x : List ℚ) (xs : List (List ℚ)) (d : List ℚ), xs ≠ [] →
      insertDelta (x :: xs) xs.length d = (xs ++ [d], xs.length, x)) ∧
    (∀ X0 ds, 2 ≤ X0.length → X0.length ≤ ds.length →
      insertAll (X0, 0) ds = (ds.drop (ds.length - X0.length), X0.length - 1)) ∧
    (∀ s : NState, ∃ d, (compute s).X = (insertDelta s.X s.iSample d).1 ∧
      (compute s).iSample = (insertDelta s.X s.iSample d).2.1) := by
  refine ⟨?_, insertDelta_full, insertAll_fresh, compute_X_insert⟩
  intro x xs
  refine ⟨shiftHistoryLeft_eq x xs, ?_, ?_⟩
  · intro i hi
    rw [shiftHistoryLeft_eq, List.get?_append hi]
    rfl
  · rw [shiftHistoryLeft_eq]
    have := get?_append_add xs [x] 0
    simpa using this

theorem claim_C8_witness :
    shiftHistoryLeft [[1], [2], [3]] = [[2], [3], [1]] ∧
      insertAll ([[0], [0]], 0) [[1], [2], [3]] = ([[2], [3]], 1) := by
  constructor
  · exact (claim_C8.1 [1] [[2], [3]]).1
  · have := claim_C8.2.2.1 [[0], [0]] [[1], [2], [3]] (by norm_num) (by norm_num)
    simpa using this

theorem listToMat_matToList {k : ℕ} (M : Matrix (Fin k) (Fin k) ℚ) :
    listToMat k (matToList M) = M := by
  ext i j
  rw [listToMat, matToList]
  have h1 : ((List.finRange k).map
        (fun i => (List.finRange k).map (fun j => M i j))).get? i.val
      = some ((List.finRange k).map (fun j => M i j)) := by
    rw [List.get?_map, List.get?_eq_get (by simpa using i.isLt)]
    simp
  have h2 : ((List.finRange k).map (fun j => M i j)).get? j.val = some (M i j) := by
    rw [List.get?_map, List.get?_eq_get (by simpa using j.isLt)]
    simp
  show ((((List.finRange k).map _).get? i.val).getD []).getD j.val 0 = M i j
  rw [h1]
  show (((List.finRange k).map _).get? j.val).getD 0 = M i j
  rw [h2]
  rfl

theorem denseInverse_mul {k : ℕ} (A : Matrix (Fin k) (Fin k) ℚ) (h : A.det ≠ 0) :
    denseInverse A * A = 1 := by
  rw [denseInverse, Matrix.smul_mul, Matrix.adjugate_mul, smul_smul,
    inv_mul_cancel₀ h, one_smul]

/-- C4: immediately after `computeProjectedJacobian`, with `J` the projected
Jacobian assembled from the basis and the oracle derivatives
(`J(i,j) = R[i]ᵀ · DR[:,j]`), the stored `ProjectedJacobian` equals `I - J`
(line 258 overwrites it) and the stored `NewtonInverseMatrix` `N` satisfies
`N · (I - J) = 1` — in particular `N` times the stored `ProjectedJacobian` is
the `iBasis × iBasis` identity — provided `I - J` is invertible. -/
theorem claim_C4 (vjp : List ℚ → List ℚ) (s : NState)
    (hinv : ((1 : Matrix (Fin s.iBasis) (Fin s.iBasis) ℚ) -
      projectedJacobian vjp s).det ≠ 0) :
    listToMat s.iBasis ((computeProjectedJacobianS vjp s).ProjectedJacobian) =
      (1 : Matrix (Fin s.iBasis) (Fin s.iBasis) ℚ) - projectedJacobian vjp s ∧
    listToMat s.iBasis ((computeProjectedJacobianS vjp s).NewtonInverseMatrix) *
      ((1 : Matrix (Fin s.iBasis) (Fin s.iBasis) ℚ) - projectedJacobian vjp s) = 1 ∧
    listToMat s.iBasis ((computeProjectedJacobianS vjp s).NewtonInverseMatrix) *
      listToMat s.iBasis ((computeProjectedJacobianS vjp s).ProjectedJacobian) = 1 := by
  have hPJ : (computeProjectedJacobianS vjp s).ProjectedJacobian =
      matToList ((1 : Matrix (Fin s.iBasis) (Fin s.iBasis) ℚ) -
        projectedJacobian vjp s) := rfl
  have hN : (computeProjectedJacobianS vjp s).NewtonInverseMatrix =
      matToList (denseInverse ((1 : Matrix (Fin s.iBasis) (Fin s.iBasis) ℚ) -
        projectedJacobian vjp s)) := rfl
  rw [hPJ, hN, listToMat_matToList, listToMat_matToList]
  exact ⟨rfl, denseInverse_mul _ hinv, denseInverse_mul _ hinv⟩

/-- A configured state with one active basis vector for the C4 witness. -/
def sC4 : NState :=
  { npt := 1, nvar := 1, nPtDomain := 1, iSample := 0, iBasis := 1,
    BasisSize_n := 1, work := [0], work2 := [0], p := [0], X := [[0],[0]],
    R := [[1]], p_R := [0], pn_R := [0], EigenR := [[2]],
    ProjectedJacobian := [[1]], NewtonInverseMatrix := [[1]] }

theorem claim_C4_witness :
    listToMat sC4.iBasis ((computeProjectedJacobianS (fun v => v) sC4).ProjectedJacobian) =
      (1 : Matrix (Fin sC4.iBasis) (Fin sC4.iBasis) ℚ) -
        projectedJacobian (fun v => v) sC4 ∧
    listToMat sC4.iBasis ((computeProjectedJacobianS (fun v => v) sC4).NewtonInverseMatrix) *
      ((1 : Matrix (Fin sC4.iBasis) (Fin sC4.iBasis) ℚ) -
        projectedJacobian (fun v => v) sC4) = 1 ∧
    listToMat sC4.iBasis ((computeProjectedJacobianS (fun v => v) sC4).NewtonInverseMatrix) *
      listToMat sC4.iBasis ((computeProjectedJacobianS (fun v => v) sC4).ProjectedJacobian) = 1 :=
  claim_C4 (fun v => v) sC4 (by
    dsimp only [sC4]
    rw [Matrix.det_fin_one]
    norm_num [projectedJacobian, dot, Matrix.one_apply, Matrix.sub_apply,
      Matrix.of_apply])

/-- A distributed configuration for C5: `npt = 2` total points of which only
`nPtDomain = 1` is locally owned (the second is halo data), one active basis
vector supported on the halo point. -/
def sC5 : NState :=
  { npt := 2, nvar := 1, nPtDomain := 1, iSample := 0, iBasis := 1,
    BasisSize_n := 1, work := [5, 7], work2 := [0, 0], p := [0, 0],
    X := [[0,0],[0,0]], R := [[0, 1]], p_R := [0], pn_R := [0],
    EigenR := [[0, 1]], ProjectedJacobian := [[1]], NewtonInverseMatrix := [[1]] }

/-- C5, divergence evidence: in the distributed configuration `sC5`
(`nPtDomain < npt`), `projectOntoSubspace` computes the projection
coefficient as the dot product over all `npt` points including the halo
point — yielding 7 — with no restriction to the first `nPtDomain` points and
no collective reduction anywhere in the class; the spec-mandated
locally-owned inner product (`domainDot`) yields 0.  The projected-Jacobian
entry diverges in the same way (full dot 1 versus local dot 0). -/
theorem claim_C5_evidence :
    sC5.nPtDomain < sC5.npt ∧
    (projectOntoSubspace sC5).p_R = [7] ∧
    domainDot sC5.nPtDomain sC5.nvar [0, 1] [5, 7] = 0 ∧
    (7 : ℚ) ≠ 0 ∧
    (computeProjectedJacobianS (fun v => v) sC5).ProjectedJacobian = [[0]] ∧
    dot [0, 1] [0, 1] = 1 ∧
    domainDot sC5.nPtDomain sC5.nvar [0, 1] [0, 1] = 0 := by
  refine ⟨by norm_num [sC5], ?_, ?_, by norm_num, ?_, ?_, ?_⟩
  · norm_num [projectOntoSubspace, sC5, matTvec, dot]
  · norm_num [domainDot, dot, sC5]
  · show matToList ((1 : Matrix (Fin sC5.iBasis) (Fin sC5.iBasis) ℚ) -
      projectedJacobian (fun v => v) sC5) = [[0]]
    dsimp only [sC5]
    rw [matToList]
    norm_num [List.finRange_succ_eq_map, projectedJacobian, dot,
      Matrix.one_apply, Matrix.sub_apply, Matrix.of_apply]
  · norm_num [dot]
  · norm_num [domainDot, dot, sC5]

theorem krylovQuotients_head_zero (Rdiag : List ℚ) (slots : ℕ) (qs : List ℚ)
    (h0 : Rdiag.get? 1 = some 0)
    (h : krylovQuotients Rdiag slots = Except.ok qs) : qs.getD 0 0 = 0 := by
  cases slots with
  | zero =>
    rw [krylovQuotients, krylovLoop] at h
    injection h with h
    rw [← h]
    rfl
  | succ n =>
    rw [krylovQuotients, krylovLoop, h0] at h
    dsimp only [] at h
    rw [if_neg (by norm_num)] at h
    cases hk : krylovLoop Rdiag 1 n with
    | error e => rw [hk] at h; cases h
    | ok qs' =>
      rw [hk] at h
      injection h with h
      rw [← h]
      rfl

/-- The window of the C6 scenario: the second delta is collinear with the
first, so a QR factorization has second diagonal entry exactly 0. -/
def sC6 : NState :=
  { npt := 2, nvar := 1, nPtDomain := 2, iSample := 1, iBasis := 0,
    BasisSize_n := 0, work := [0,0], work2 := [0,0], p := [0,0],
    X := [[1,0], [2,0]], R := [[0,0]], p_R := [], pn_R := [],
    EigenR := [[0,0]], ProjectedJacobian := [], NewtonInverseMatrix := [] }

/-- A QR oracle for `sC6`: the factor of the window matrix with columns
`[1,0]` and `[2,0]` is `Q = I`, `R = [[1,2],[0,0]]`, so the diagonal is
`(1, 0)`. -/
def qrZ : QROracle := fun _ => ([1, 0], [1, 0])

/-- C6, counterexample: with a zero second diagonal entry the first quotient
slot stays 0, but with a caller-supplied negative threshold the acceptance
test `|0| > K` passes and the basis grows — so a zero diagonal ratio does not
"always" lead to no growth. -/
theorem claim_C6_counterexample :
    checkBasis qrZ sC6 (-1) = Except.ok (true, growBasis sC6 [1, 0]) ∧
      (growBasis sC6 [1, 0]).iBasis = 1 := by
  constructor
  · rw [checkBasis]
    norm_num [sC6, qrZ, krylovQuotients, krylovLoop]
  · rfl

/-- C6 (amended): in `checkBasis` with a full window, a slot whose second
diagonal entry is exactly zero keeps its zero-initialized quotient, a NaN
first quotient is rejected by the explicit `!(q != q)` guard, and — provided
the caller-supplied threshold is nonnegative — a zero second diagonal entry
never causes a crash and never grows the basis (`checkBasis` returns false
with the state unchanged).  (With a negative threshold the zero quotient
passes the `|q| > K` test and the basis grows; see the counterexample.) -/
theorem claim_C6_amended :
    (∀ (Rdiag : List RD) (slots i : ℕ), i < slots →
      Rdiag.getD (i+1) (RD.val 0) = RD.val 0 →
      (krylovQuotientsD Rdiag slots).getD i (RD.val 0) = RD.val 0) ∧
    (∀ (qs : List RD) (K : ℚ), qs.getD 0 (RD.val 0) = RD.nan →
      krylovAcceptD qs K = false) ∧
    (∀ (qr : QROracle) (s : NState) (K : ℚ), 0 ≤ K →
      (qr s.X).1.get? 1 = some 0 →
      ∀ b s', checkBasis qr s K = Except.ok (b, s') → b = false ∧ s' = s) := by
  refine ⟨?_, ?_, ?_⟩
  · intro Rdiag slots i hi h
    rw [krylovQuotientsD]
    show ((((List.range slots).map _).get? i).getD (RD.val 0)) = RD.val 0
    rw [List.get?_map, List.get?_range hi]
    show (if RD.ne (Rdiag.getD (i+1) (RD.val 0)) (RD.val 0) = true
        then RD.div (Rdiag.getD i (RD.val 0)) (Rdiag.getD (i+1) (RD.val 0))
        else RD.val 0) = RD.val 0
    rw [h]
    norm_num [RD.ne]
  · intro qs K h
    rw [krylovAcceptD, h]
    rfl
  · intro qr s K hK h0 b s' h
    rcases checkBasis_ok_cases qr s K b s' h with
      ⟨hb, rfl⟩ | ⟨hb, rfl, hfull, hspare, qs, hqs, hgt⟩
    · exact ⟨hb, rfl⟩
    · have hz : qs.getD 0 0 = 0 := krylovQuotients_head_zero _ _ _ h0 hqs
      rw [hz] at hgt
      norm_num at hgt
      exact absurd hK (by exact not_le.mpr hgt)

theorem claim_C6_amended_witness :
    (krylovQuotientsD [RD.val 1, RD.val 0] 1).getD 0 (RD.val 0) = RD.val 0 ∧
      krylovAcceptD [RD.nan] 5 = false ∧
      (false = false ∧ sC6 = sC6) := by
  refine ⟨claim_C6_amended.1 [RD.val 1, RD.val 0] 1 0 (by norm_num) rfl,
    claim_C6_amended.2.1 [RD.nan] 5 rfl,
    claim_C6_amended.2.2 qrZ sC6 7 (by norm_num) rfl false sC6 ?_⟩
  rw [checkBasis]
  norm_num [sC6, qrZ, krylovQuotients, krylovLoop]

end NewtonUpdate
